import Mathlib

/-
Verification of the `array_streambuf::output_streambuf` sinks of src/log.h.

The destination stream (a `std::ostream` such as `std::cerr`) is observed
through the calls the sinks issue on it: `sink_.write(p, n)` becomes an
`Event.write` carrying the payload bytes, and `sink_.flush()` becomes
`Event.flush`.  Each sink is embedded as the state its `std::streambuf`
machinery maintains (the put area `[pbase, pptr)` as a list of buffered
characters, plus the `send_prefix_` flag for `prefixed`), and each member
function becomes a state-passing function returning the new state together
with the list of destination events it emitted, in order.
-/

namespace ArrayStreambuf

/-- Destination-stream observation: one call the sink makes on its
`std::ostream` sink, either `write` with its byte payload or `flush`. -/
inductive Event where
  | write (payload : List Char)
  | flush
deriving DecidableEq

/-- Byte stream actually delivered to the destination: the concatenation of
all `write` payloads, in order. -/
def bytesOf : List Event → List Char
  | [] => []
  | Event.write p :: evs => p ++ bytesOf evs
  | Event.flush :: evs => bytesOf evs

/-- Number of `write` calls the destination received (flush calls do not
count, zero-length writes do). -/
def writeCalls (evs : List Event) : Nat :=
  (evs.filter fun e => match e with | Event.write _ => true | Event.flush => false).length

/-- Value of `std::char_traits<char>::eof()`, the failure value of
`sputc`/`overflow`. -/
def eofInt : Int := -1

/-- Model of `nullbuf::overflow` (src/log.h line 22): the put area is empty
(default `std::streambuf`), so every `sputc` lands here; it returns `ch`
unchanged (success, never `eof`) and touches no destination. -/
def nullbuf_overflow (ch : Char) : Int × List Event :=
  ((ch.toNat : Int), [])

/-- Model of `nullbuf`'s flush: `nullbuf` does not override `sync`, so
`std::streambuf::sync` runs, returning 0 and doing nothing. -/
def nullbuf_sync : Int × List Event :=
  (0, [])

/-- An operation applied to a sink from outside: write one character or
request a flush (`pubsync`). -/
inductive SinkOp where
  | write (ch : Char)
  | flush
deriving DecidableEq

/-- Run a sequence of operations against `nullbuf`, collecting the return
value of every write and all destination events. -/
def nullbufRun : List SinkOp → List Int × List Event
  | [] => ([], [])
  | SinkOp.write ch :: ops =>
      let r := nullbuf_overflow ch
      let rest := nullbufRun ops
      (r.1 :: rest.1, r.2 ++ rest.2)
  | SinkOp.flush :: ops =>
      let r := nullbuf_sync
      let rest := nullbufRun ops
      (rest.1, r.2 ++ rest.2)

/-- State of `arraybuf<N>` (src/log.h lines 25-62): the put area set up by
`setp(buffer_.begin(), buffer_.end())`, recorded as the buffered slice
`[pbase, pptr)`.  The capacity `N` is passed to the operations. -/
structure Arraybuf where
  pen : List Char
deriving DecidableEq

/-- Model of `arraybuf::commit` (lines 54-58): `sink_.write(pbase(), n)` with
`n = pptr() - pbase()` — one destination write call carrying the whole
buffered slice, issued even when `n = 0` — then `pbump(-n)` resets the
cursor. -/
def Arraybuf.commit (s : Arraybuf) : Arraybuf × List Event :=
  (⟨[]⟩, [Event.write s.pen])

/-- Model of `arraybuf::overflow` (lines 41-45): `commit()` then
`sputc(ch)`.  After the commit the put area is empty, so `sputc` stores the
character directly; this needs `0 < N`, which holds for every instantiation
in the repository (with `N = 0` the C++ `sputc`/`overflow` recursion would
never terminate), and the theorems below carry `0 < N` where it matters. -/
def Arraybuf.overflow (ch : Char) (s : Arraybuf) : Arraybuf × List Event :=
  let c := s.commit
  (⟨c.1.pen ++ [ch]⟩, c.2)

/-- Model of `std::streambuf::sputc` on an `arraybuf<N>`: store at the
cursor while `pptr() < epptr()` (cursor below `N`), otherwise call the
virtual `overflow`. -/
def Arraybuf.sputc (N : Nat) (ch : Char) (s : Arraybuf) : Arraybuf × List Event :=
  if s.pen.length < N then (⟨s.pen ++ [ch]⟩, []) else s.overflow ch

/-- Model of `arraybuf::sync` (lines 47-51): `commit()`, then
`sink_.flush()`, then `return 0` unconditionally. -/
def Arraybuf.sync (s : Arraybuf) : (Arraybuf × List Event) × Int :=
  let c := s.commit
  ((c.1, c.2 ++ [Event.flush]), 0)

/-- Write a sequence of characters into an `arraybuf<N>` one `sputc` at a
time, as `std::ostream` insertion does, collecting destination events. -/
def Arraybuf.writeList (N : Nat) (bs : List Char) (s : Arraybuf) :
    Arraybuf × List Event :=
  match bs with
  | [] => (s, [])
  | ch :: rest =>
      let r1 := s.sputc N ch
      let r2 := r1.1.writeList N rest
      (r2.1, r1.2 ++ r2.2)

/-- State of `prefixed<Prefix, arraybuf<N>>` (src/log.h lines 89-131): the
inherited put area plus the `send_prefix_` flag (line 130, initially
`true`).  The prefix literal `Prefix::value` is passed to the operations as
`prefix_value`. -/
structure Prefixed where
  pen : List Char
  send_prefix_ : Bool
deriving DecidableEq

/-- Freshly constructed `prefixed<Prefix, arraybuf<N>>`: empty put area,
`send_prefix_ = true`. -/
def Prefixed.init : Prefixed :=
  { pen := [], send_prefix_ := true }

/-- Model of `prefixed::overflow` (lines 105-112): if `send_prefix_`, write
the prefix literal straight to the destination and clear the flag; then
`base_type::overflow(ch)` commits the buffered slice and stores `ch`. -/
def Prefixed.overflow (prefix_value : List Char) (ch : Char) (s : Prefixed) :
    Prefixed × List Event :=
  let pre := if s.send_prefix_ then [Event.write prefix_value] else []
  let sp := if s.send_prefix_ then false else s.send_prefix_
  let b := Arraybuf.overflow ch ⟨s.pen⟩
  (⟨b.1.pen, sp⟩, pre ++ b.2)

/-- Model of `prefixed::sync` (lines 114-121): if `send_prefix_`, write the
prefix literal to the destination; set `send_prefix_` back to `true`; then
`base_type::sync()` commits the buffered slice (a write call even when the
slice is empty), flushes the destination and returns 0. -/
def Prefixed.sync (prefix_value : List Char) (s : Prefixed) :
    (Prefixed × List Event) × Int :=
  let pre := if s.send_prefix_ then [Event.write prefix_value] else []
  let b := Arraybuf.sync ⟨s.pen⟩
  ((⟨b.1.1.pen, true⟩, pre ++ b.1.2), b.2)

/-- Model of `std::streambuf::sputc` on a `prefixed<Prefix, arraybuf<N>>`:
store at the cursor while there is room, otherwise the virtual `overflow`,
which is `prefixed::overflow`. -/
def Prefixed.sputc (N : Nat) (prefix_value : List Char) (ch : Char)
    (s : Prefixed) : Prefixed × List Event :=
  if s.pen.length < N then (⟨s.pen ++ [ch], s.send_prefix_⟩, [])
  else s.overflow prefix_value ch

/-- Write a sequence of characters into a `prefixed<Prefix, arraybuf<N>>`
one `sputc` at a time, collecting destination events. -/
def Prefixed.writeList (N : Nat) (prefix_value : List Char) (bs : List Char)
    (s : Prefixed) : Prefixed × List Event :=
  match bs with
  | [] => (s, [])
  | ch :: rest =>
      let r1 := s.sputc N prefix_value ch
      let r2 := r1.1.writeList N prefix_value rest
      (r2.1, r1.2 ++ r2.2)

/-- Model of destroying a `prefixed<Prefix, arraybuf<N>>`:
`prefixed::~prefixed` (lines 98-102) calls `sync()` only when
`pptr() > pbase()`; then the base `arraybuf::~arraybuf` (line 36) runs, and
its `sync()` call dispatches to `arraybuf::sync` (the derived part is gone),
committing the now-current slice and flushing the destination. -/
def Prefixed.destroy (prefix_value : List Char) (s : Prefixed) : List Event :=
  let d := if 0 < s.pen.length then (s.sync prefix_value).1 else (s, [])
  d.2 ++ ((Arraybuf.mk d.1.pen).sync).1.2

/-- Destination events of one full flush cycle: construct (or start right
after a flush, which leaves the same state), write `bs`, then flush. -/
def cycleEvents (N : Nat) (prefix_value bs : List Char) : List Event :=
  let r := Prefixed.init.writeList N prefix_value bs
  r.2 ++ ((r.1.sync prefix_value)).1.2

/-- Destination events of writing `bs` into a fresh sink and then destroying
it without an explicit flush. -/
def writeThenDestroy (N : Nat) (prefix_value bs : List Char) : List Event :=
  let r := Prefixed.init.writeList N prefix_value bs
  r.2 ++ r.1.destroy prefix_value

/-- Destination events emitted by the second of two back-to-back flushes
with no writes in between, starting from state `s`. -/
def secondSyncEvents (prefix_value : List Char) (s : Prefixed) : List Event :=
  ((((s.sync prefix_value)).1.1.sync prefix_value)).1.2

/-- Prefix literal `"[info]: "` of `info_prefix` (src/log.h line 150). -/
def infoPfx : List Char := "[info]: ".toList

/-- Writing a sequence that still fits in the remaining capacity stores every
character and emits nothing at the destination. -/
theorem Arraybuf.writeList_fits (N : Nat) (bs : List Char) :
    ∀ pen : List Char, pen.length + bs.length ≤ N →
      Arraybuf.writeList N bs ⟨pen⟩ = (⟨pen ++ bs⟩, []) := by
  induction bs with
  | nil => intro pen _; simp [Arraybuf.writeList]
  | cons ch rest ih =>
      intro pen h
      have hlen : (ch :: rest).length = rest.length + 1 := rfl
      have hlt : pen.length < N := by omega
      have hfit : (pen ++ [ch]).length + rest.length ≤ N := by
        simp only [List.length_append, List.length_singleton]; omega
      simp only [Arraybuf.writeList, Arraybuf.sputc, if_pos hlt, ih (pen ++ [ch]) hfit]
      simp

/-- Splitting a written sequence splits the run into two runs, the second
starting from the state the first leaves behind. -/
theorem Arraybuf.writeList_append (N : Nat) (xs ys : List Char) :
    ∀ s : Arraybuf,
      Arraybuf.writeList N (xs ++ ys) s =
        ((Arraybuf.writeList N ys (Arraybuf.writeList N xs s).1).1,
         (Arraybuf.writeList N xs s).2 ++
           (Arraybuf.writeList N ys (Arraybuf.writeList N xs s).1).2) := by
  induction xs with
  | nil => intro s; simp [Arraybuf.writeList]
  | cons ch rest ih =>
      intro s
      simp only [List.cons_append, Arraybuf.writeList, List.append_eq]
      rw [ih ((s.sputc N ch)).1]
      simp

/-- Writing a sequence that still fits in the remaining capacity of a
`prefixed` sink stores every character, emits nothing at the destination and
leaves the flag unchanged. -/
theorem Prefixed.writeList_no_overflow (N : Nat) (pv bs : List Char) :
    ∀ (pen : List Char) (f : Bool), pen.length + bs.length ≤ N →
      Prefixed.writeList N pv bs ⟨pen, f⟩ = (⟨pen ++ bs, f⟩, []) := by
  induction bs with
  | nil => intro pen f _; simp [Prefixed.writeList]
  | cons ch rest ih =>
      intro pen f h
      have hlen : (ch :: rest).length = rest.length + 1 := rfl
      have hlt : pen.length < N := by omega
      have hfit : (pen ++ [ch]).length + rest.length ≤ N := by
        simp only [List.length_append, List.length_singleton]; omega
      simp [Prefixed.writeList, Prefixed.sputc, hlt, ih (pen ++ [ch]) f hfit]

/-- Mid-cycle runs: once the flag is down, any further writes emit only
whole-buffer commit chunks — never the prefix.  The chunks plus the bytes
left in the buffer are exactly the old buffer content followed by the new
writes, in order. -/
theorem Prefixed.writeList_from_false (N : Nat) (pv : List Char) (hN : 0 < N) :
    ∀ bs pen : List Char, pen.length ≤ N →
      ∃ (chunks : List (List Char)) (pen2 : List Char),
        Prefixed.writeList N pv bs ⟨pen, false⟩ =
          (⟨pen2, false⟩, chunks.map Event.write) ∧
        chunks.flatten ++ pen2 = pen ++ bs ∧ pen2.length ≤ N := by
  intro bs
  induction bs with
  | nil =>
      intro pen h
      exact ⟨[], pen, by simp [Prefixed.writeList], by simp, h⟩
  | cons ch rest ih =>
      intro pen h
      by_cases hlt : pen.length < N
      · obtain ⟨chunks, pen2, heq, hjoin, hle⟩ :=
          ih (pen ++ [ch])
            (by simp only [List.length_append, List.length_singleton]; omega)
        refine ⟨chunks, pen2, ?_, ?_, hle⟩
        · simp [Prefixed.writeList, Prefixed.sputc, hlt, heq]
        · rw [hjoin]; simp
      · obtain ⟨chunks, pen2, heq, hjoin, hle⟩ :=
          ih [ch] (by simpa using hN)
        refine ⟨pen :: chunks, pen2, ?_, ?_, hle⟩
        · simp [Prefixed.writeList, Prefixed.sputc, hlt, Prefixed.overflow,
                Arraybuf.overflow, Arraybuf.commit, heq]
        · simp only [List.flatten_cons, List.append_assoc, hjoin]
          simp

/-- Fresh-cycle runs: starting with the flag up, either everything fitted
(no destination event, flag still up) or the first overflow emitted the
prefix once, in front of the first commit chunk, and the rest of the run is
a mid-cycle run. -/
theorem Prefixed.writeList_from_true (N : Nat) (pv : List Char) (hN : 0 < N) :
    ∀ bs pen : List Char, pen.length ≤ N →
      (Prefixed.writeList N pv bs ⟨pen, true⟩ = (⟨pen ++ bs, true⟩, []) ∧
        (pen ++ bs).length ≤ N) ∨
      (∃ (chunks : List (List Char)) (pen2 : List Char),
        Prefixed.writeList N pv bs ⟨pen, true⟩ =
          (⟨pen2, false⟩, Event.write pv :: chunks.map Event.write) ∧
        chunks.flatten ++ pen2 = pen ++ bs ∧ pen2.length ≤ N) := by
  intro bs
  induction bs with
  | nil =>
      intro pen h
      left
      exact ⟨by simp [Prefixed.writeList], by simpa using h⟩
  | cons ch rest ih =>
      intro pen h
      by_cases hlt : pen.length < N
      · rcases ih (pen ++ [ch])
            (by simp only [List.length_append, List.length_singleton]; omega) with
          ⟨heq, hle⟩ | ⟨chunks, pen2, heq, hjoin, hle⟩
        · left
          refine ⟨?_, ?_⟩
          · simp [Prefixed.writeList, Prefixed.sputc, hlt, heq]
          · simp only [List.length_append, List.length_singleton, List.length_cons] at hle ⊢
            omega
        · right
          refine ⟨chunks, pen2, ?_, ?_, hle⟩
          · simp [Prefixed.writeList, Prefixed.sputc, hlt, heq]
          · rw [hjoin]; simp
      · right
        obtain ⟨chunks, pen2, heq, hjoin, hle⟩ :=
          Prefixed.writeList_from_false N pv hN rest [ch] (by simpa using hN)
        refine ⟨pen :: chunks, pen2, ?_, ?_, hle⟩
        · simp [Prefixed.writeList, Prefixed.sputc, hlt, Prefixed.overflow,
                Arraybuf.overflow, Arraybuf.commit, heq]
        · simp only [List.flatten_cons, List.append_assoc, hjoin]
          simp

/-- Claim C1: in every flush cycle the prefix literal reaches the
destination exactly once — as the very first write call of the cycle,
before any content chunk and never between content chunks — no matter how
many overflow-triggered commits happen inside the cycle; the content chunks
concatenate to exactly the bytes written in the cycle. -/
theorem prefix_once_per_flush_cycle (N : Nat) (pv bs : List Char) (hN : 0 < N) :
    ∃ chunks : List (List Char),
      cycleEvents N pv bs =
        Event.write pv :: (chunks.map Event.write ++ [Event.flush]) ∧
      chunks.flatten = bs := by
  rcases Prefixed.writeList_from_true N pv hN bs [] (by simp) with
    ⟨heq, _⟩ | ⟨chunks, pen2, heq, hjoin, _⟩
  · refine ⟨[bs], ?_, by simp⟩
    simp [cycleEvents, Prefixed.init, heq, Prefixed.sync, Arraybuf.sync,
          Arraybuf.commit]
  · refine ⟨chunks ++ [pen2], ?_, ?_⟩
    · simp [cycleEvents, Prefixed.init, heq, Prefixed.sync, Arraybuf.sync,
            Arraybuf.commit]
    · simp only [List.nil_append] at hjoin
      simp [hjoin]

/-- Witness for `prefix_once_per_flush_cycle`: capacity 2, prefix `"p"`,
three written bytes (so one overflow-triggered commit occurs mid-cycle). -/
theorem prefix_once_per_flush_cycle_witness :
    0 < 2 ∧
    ∃ chunks : List (List Char),
      cycleEvents 2 ['p'] ['a', 'b', 'c'] =
        Event.write ['p'] :: (chunks.map Event.write ++ [Event.flush]) ∧
      chunks.flatten = ['a', 'b', 'c'] :=
  ⟨by decide, prefix_once_per_flush_cycle 2 ['p'] ['a', 'b', 'c'] (by decide)⟩

/-- Counterexample to claim C2 as stated: with capacity 3, prefix `"p"` and
the single written byte `'a'` followed by a flush, the destination does not
receive exactly one write call (the prefix and the content arrive in two
separate write calls). -/
theorem short_write_single_call_cex :
    ¬ (writeCalls (cycleEvents 3 ['p'] ['a']) = 1) := by
  decide

/-- Claim C2 amended: for fewer than `N` written bytes followed by one
flush, the destination receives exactly two write calls — the first carrying
the prefix, the second all written bytes in their original order — so the
byte stream delivered is the prefix followed by the written bytes. -/
theorem short_write_two_calls (N : Nat) (pv bs : List Char)
    (h : bs.length < N) :
    cycleEvents N pv bs = [Event.write pv, Event.write bs, Event.flush] ∧
    writeCalls (cycleEvents N pv bs) = 2 ∧
    bytesOf (cycleEvents N pv bs) = pv ++ bs := by
  have heq := Prefixed.writeList_no_overflow N pv bs [] true (by simpa using h.le)
  have hev : cycleEvents N pv bs =
      [Event.write pv, Event.write bs, Event.flush] := by
    simp [cycleEvents, Prefixed.init, heq, Prefixed.sync, Arraybuf.sync,
          Arraybuf.commit]
  refine ⟨hev, ?_, ?_⟩
  · rw [hev]; rfl
  · rw [hev]; simp [bytesOf]

/-- Witness for `short_write_two_calls`: capacity 3, prefix `"p"`, two
written bytes. -/
theorem short_write_two_calls_witness :
    cycleEvents 3 ['p'] ['a', 'b'] =
      [Event.write ['p'], Event.write ['a', 'b'], Event.flush] ∧
    writeCalls (cycleEvents 3 ['p'] ['a', 'b']) = 2 ∧
    bytesOf (cycleEvents 3 ['p'] ['a', 'b']) = ['p'] ++ ['a', 'b'] :=
  short_write_two_calls 3 ['p'] ['a', 'b'] (by decide)

/-- Counterexample to claim C6 as stated: the scenario (capacity 10, prefix
`"[info]: "`, write `"hello world, test"`, flush) does not produce exactly
two destination writes — the prefix travels in its own write call. -/
theorem scenario_two_writes_cex :
    ¬ (writeCalls (cycleEvents 10 infoPfx "hello world, test".toList) = 2) := by
  decide

/-- Claim C6 amended: the scenario produces at the destination exactly the
byte sequence `"[info]: hello worl"` followed by `"d, test"`, delivered as
three write calls — the prefix, the first committed chunk of 10 bytes
(committed when the 11th byte arrives: the first 10 writes emit nothing),
and the remaining 7 bytes without a prefix — a single prefix occurrence. -/
theorem scenario_three_writes :
    cycleEvents 10 infoPfx "hello world, test".toList =
      [Event.write infoPfx, Event.write "hello worl".toList,
       Event.write "d, test".toList, Event.flush] ∧
    bytesOf (cycleEvents 10 infoPfx "hello world, test".toList) =
      "[info]: hello worl".toList ++ "d, test".toList ∧
    writeCalls (cycleEvents 10 infoPfx "hello world, test".toList) = 3 ∧
    (Prefixed.init.writeList 10 infoPfx "hello worl".toList).2 = [] := by
  refine ⟨by decide, by decide, by decide, by decide⟩

/-- Claim C7: writing between 1 and `N - 1` bytes into a fresh
`prefixed<Prefix, arraybuf<N>>` and destroying it without an explicit flush
delivers exactly one prefixed commit to the destination — the prefix
followed by all written bytes, nothing lost (the base destructor then only
adds a zero-length write and a flush, carrying no bytes). -/
theorem destroy_flushes_pending (N : Nat) (pv bs : List Char)
    (h0 : 0 < bs.length) (hN : bs.length < N) :
    writeThenDestroy N pv bs =
      [Event.write pv, Event.write bs, Event.flush, Event.write [],
       Event.flush] ∧
    bytesOf (writeThenDestroy N pv bs) = pv ++ bs := by
  have heq := Prefixed.writeList_no_overflow N pv bs [] true (by simpa using hN.le)
  have hev : writeThenDestroy N pv bs =
      [Event.write pv, Event.write bs, Event.flush, Event.write [],
       Event.flush] := by
    simp [writeThenDestroy, Prefixed.init, heq, Prefixed.destroy, h0,
          Prefixed.sync, Arraybuf.sync, Arraybuf.commit]
  refine ⟨hev, ?_⟩
  rw [hev]; simp [bytesOf]

/-- Witness for `destroy_flushes_pending`: capacity 3, prefix `"p"`, one
written byte. -/
theorem destroy_flushes_pending_witness :
    writeThenDestroy 3 ['p'] ['a'] =
      [Event.write ['p'], Event.write ['a'], Event.flush, Event.write [],
       Event.flush] ∧
    bytesOf (writeThenDestroy 3 ['p'] ['a']) = ['p'] ++ ['a'] :=
  destroy_flushes_pending 3 ['p'] ['a'] (by decide) (by decide)

/-- Claim C5: for `arraybuf<N>`: a write with the cursor below `N` stores at
the cursor, advances it and emits nothing; a write with the cursor at `N`
first commits all `N` buffered bytes to the destination in one write call and
resets the cursor, then stores the byte, leaving the cursor at 1; writing
exactly `N` bytes into an empty buffer fills it without any commit; the
(N+1)-th byte triggers the commit-then-store sequence. -/
theorem arraybuf_write_semantics :
    (∀ (N : Nat) (ch : Char) (s : Arraybuf), s.pen.length < N →
        s.sputc N ch = (⟨s.pen ++ [ch]⟩, [])) ∧
    (∀ (N : Nat) (ch : Char) (s : Arraybuf), 0 < N → s.pen.length = N →
        s.sputc N ch = (⟨[ch]⟩, [Event.write s.pen])) ∧
    (∀ (N : Nat) (bs : List Char), bs.length = N →
        Arraybuf.writeList N bs ⟨[]⟩ = (⟨bs⟩, [])) ∧
    (∀ (N : Nat) (bs : List Char) (ch : Char), 0 < N → bs.length = N →
        Arraybuf.writeList N (bs ++ [ch]) ⟨[]⟩ = (⟨[ch]⟩, [Event.write bs])) := by
  have store : ∀ (N : Nat) (ch : Char) (s : Arraybuf), s.pen.length < N →
      s.sputc N ch = (⟨s.pen ++ [ch]⟩, []) := by
    intro N ch s h; simp [Arraybuf.sputc, if_pos h]
  have full : ∀ (N : Nat) (ch : Char) (s : Arraybuf), 0 < N → s.pen.length = N →
      s.sputc N ch = (⟨[ch]⟩, [Event.write s.pen]) := by
    intro N ch s _ h
    have : ¬ s.pen.length < N := by omega
    simp [Arraybuf.sputc, if_neg this, Arraybuf.overflow, Arraybuf.commit]
  have fill : ∀ (N : Nat) (bs : List Char), bs.length = N →
      Arraybuf.writeList N bs ⟨[]⟩ = (⟨bs⟩, []) := by
    intro N bs h
    simpa using Arraybuf.writeList_fits N bs [] (by simp [h])
  refine ⟨store, full, fill, ?_⟩
  intro N bs ch hN h
  rw [Arraybuf.writeList_append, fill N bs h]
  simp only [Arraybuf.writeList]
  rw [full N ch ⟨bs⟩ hN h]
  simp

/-- Witness for `arraybuf_write_semantics` at concrete inputs. -/
theorem arraybuf_write_semantics_witness :
    Arraybuf.sputc 2 'b' ⟨['a']⟩ = (⟨['a', 'b']⟩, []) ∧
    Arraybuf.sputc 1 'b' ⟨['a']⟩ = (⟨['b']⟩, [Event.write ['a']]) ∧
    Arraybuf.writeList 2 ['a', 'b'] ⟨[]⟩ = (⟨['a', 'b']⟩, []) ∧
    Arraybuf.writeList 2 (['a', 'b'] ++ ['c']) ⟨[]⟩ = (⟨['c']⟩, [Event.write ['a', 'b']]) :=
  ⟨arraybuf_write_semantics.1 2 'b' ⟨['a']⟩ (by decide),
   arraybuf_write_semantics.2.1 1 'b' ⟨['a']⟩ (by decide) (by decide),
   arraybuf_write_semantics.2.2.1 2 ['a', 'b'] (by decide),
   arraybuf_write_semantics.2.2.2 2 ['a', 'b'] 'c' (by decide) (by decide)⟩

/-- Claim C9: every sequence of writes and flushes against `nullbuf` delivers
zero events to any destination, every write reports success (returns the
character's int value, never `eof`), and flush is a no-op returning 0. -/
theorem nullbuf_discards_all (ops : List SinkOp) :
    (nullbufRun ops).2 = [] ∧
    ((nullbufRun ops).1.all fun r => r != eofInt) = true ∧
    nullbuf_sync = (0, []) := by
  refine ⟨?_, ?_, rfl⟩
  · induction ops with
    | nil => rfl
    | cons op rest ih =>
        cases op <;> simpa [nullbufRun, nullbuf_overflow, nullbuf_sync] using ih
  · induction ops with
    | nil => rfl
    | cons op rest ih =>
        cases op with
        | write ch =>
            have hne : ((ch.toNat : Int) != eofInt) = true := by
              simp only [bne_iff_ne, ne_eq, eofInt]
              omega
            simpa [nullbufRun, nullbuf_overflow, hne] using ih
        | flush => simpa [nullbufRun, nullbuf_sync] using ih

/-- Claim C10: `arraybuf::sync` returns 0 unconditionally (the destination's
state is never consulted), always issues the commit write followed by a
destination flush, and with an empty buffer the commit is a zero-length write
call, still issued before the destination flush. -/
theorem arraybuf_sync_reports_success (s : Arraybuf) :
    (s.sync).2 = 0 ∧
    (s.sync).1.2 = [Event.write s.pen, Event.flush] ∧
    (s.pen = [] → (s.sync).1.2 = [Event.write [], Event.flush]) := by
  refine ⟨rfl, rfl, ?_⟩
  intro h
  simp [Arraybuf.sync, Arraybuf.commit, h]

/-- Witness for `arraybuf_sync_reports_success` at the empty buffer. -/
theorem arraybuf_sync_reports_success_witness :
    ((Arraybuf.mk []).sync).2 = 0 ∧
    ((Arraybuf.mk []).sync).1.2 = [Event.write [], Event.flush] :=
  ⟨(arraybuf_sync_reports_success ⟨[]⟩).1,
   (arraybuf_sync_reports_success ⟨[]⟩).2.2 rfl⟩

/-- Claim C8: destroying a `prefixed` sink whose wrapped buffer is empty
delivers no prefix bytes and no content bytes: the destruction only issues
the base destructor's zero-length commit write and a destination flush, so
the destination byte stream is unchanged. -/
theorem destroy_empty_silent (pv : List Char) (f : Bool) :
    Prefixed.destroy pv ⟨[], f⟩ = [Event.write [], Event.flush] ∧
    bytesOf (Prefixed.destroy pv ⟨[], f⟩) = [] := by
  constructor <;> simp [Prefixed.destroy, Arraybuf.sync, Arraybuf.commit, bytesOf]

/-- Counterexample to claim C3 as stated: after a first flush, a second flush
with no writes in between does emit prefix bytes to the destination (the
flag was reset to `true` by the first flush), so it is not byte-silent. -/
theorem double_flush_noop_cex :
    ¬ (bytesOf (secondSyncEvents ['p'] Prefixed.init) = []) := by
  decide

/-- Claim C3 amended: the second of two back-to-back flushes with no writes
in between re-emits the prefix (every flush resets the pending-prefix flag
to `true`), followed by a zero-length content write and a destination flush;
no content bytes reach the destination. -/
theorem double_flush_reemits (pv : List Char) (s : Prefixed) :
    secondSyncEvents pv s = [Event.write pv, Event.write [], Event.flush] := by
  simp [secondSyncEvents, Prefixed.sync, Arraybuf.sync, Arraybuf.commit]

/-- Counterexample to claim C4 as stated: with `N = 1`, writing two bytes
performs an overflow-triggered commit (the destination events show the
committed byte), and immediately after that commit completes the
pending-prefix flag is `false`, not `true`. -/
theorem flag_true_after_commit_cex :
    (Prefixed.init.writeList 1 ['p'] ['a', 'b']).2 =
      [Event.write ['p'], Event.write ['a']] ∧
    ¬ ((Prefixed.init.writeList 1 ['p'] ['a', 'b']).1.send_prefix_ = true) := by
  decide

/-- Claim C4 amended: the pending-prefix flag starts `true`; it is `true`
immediately after any flush-triggered commit completes (`sync` sets it before
delegating the commit); and writing the prefix during an overflow sets it
`false` — after an overflow-triggered commit the flag is always `false`. -/
theorem flag_lifecycle :
    Prefixed.init.send_prefix_ = true ∧
    (∀ (pv : List Char) (s : Prefixed), ((s.sync pv)).1.1.send_prefix_ = true) ∧
    (∀ (pv : List Char) (ch : Char) (s : Prefixed),
        (s.overflow pv ch).1.send_prefix_ = false) := by
  refine ⟨rfl, fun pv s => rfl, fun pv ch s => ?_⟩
  cases s with
  | mk pen sp => cases sp <;> simp [Prefixed.overflow]

end ArrayStreambuf
